import Mathlib

/-!
Verification development for `audio_filenames.py`, a filename normalizer for
a personal audio library.  The Python source is shallowly embedded here:
strings become `List Char`, the small fixed regexes become executable
matching functions with the same backtracking behaviour on the inputs the
program feeds them, the filesystem becomes an explicit list of paths, and
`process_folder` becomes a state-passing fold.

Modelling notes on Python regex semantics, argued once here and used by the
definitions below:
* `\s` is modelled by `isPySpace`, covering the ASCII whitespace characters
  and the Unicode whitespace code points matched by Python.
* `IGNORECASE` literal matching is modelled by comparing `Char.toLower`
  images, which agrees with Python on ASCII letters (the only letters the
  patterns of this program contain).
* `\d` is modelled by `Char.isDigit` (ASCII decimal digits).
* Greedy quantifiers followed by a literal that can never overlap the
  quantified class (`\s+` or `\s*` before a non-space literal, `\d+` before
  `\s+`, `[^\]]+` before `]`) admit no useful backtracking, so maximal
  munch is exact.  The one place `$` interacts with a trailing newline,
  `(.*)$`, is modelled exactly by `dotStarDollar`.
-/

set_option maxHeartbeats 2000000
set_option linter.unusedVariables false

namespace AudioFilenames

/-- Python whitespace (`\s`, `str.strip`): ASCII whitespace plus the Unicode
whitespace code points Python treats as space. -/
def isPySpace (c : Char) : Bool :=
  c == ' ' || c == '\t' || c == '\n' || c == '\r' || c == '\x0b' || c == '\x0c' ||
  c == '\x1c' || c == '\x1d' || c == '\x1e' || c == '\x1f' || c == '\u0085' ||
  c == ' ' || c == ' ' || c == ' ' || c == ' ' ||
  c == ' ' || c == ' ' || c == ' ' || c == ' ' ||
  c == ' ' || c == ' ' || c == ' ' || c == ' ' ||
  c == ' ' || c == ' ' || c == ' ' || c == ' ' ||
  c == ' ' || c == '　'

/-- The character class stripped by the final `s.strip(" -")` in `clean_common`. -/
def isSpHy (c : Char) : Bool :=
  c == ' ' || c == '-'

/-- Case-insensitive character comparison (`re.IGNORECASE` on ASCII letters). -/
def ciEq (a b : Char) : Bool :=
  a.toLower == b.toLower

/-- Match a literal pattern case-insensitively at the head of the input; on
success return the rest of the input. -/
def stripPrefixCI : List Char → List Char → Option (List Char)
  | [], l => some l
  | _ :: _, [] => none
  | p :: ps, c :: cs => if ciEq c p then stripPrefixCI ps cs else none

/-- Remove the longest run of characters satisfying `p` from the end of `l`
(the tail half of Python `str.strip`). -/
def rstripWhen (p : Char → Bool) (l : List Char) : List Char :=
  (l.reverse.dropWhile p).reverse

/-- Python `str.strip` with an arbitrary character class: drop the longest
run satisfying `p` from both ends. -/
def stripWhen (p : Char → Bool) (l : List Char) : List Char :=
  rstripWhen p (l.dropWhile p)

/-- Python `s.strip()` (whitespace at both ends). -/
def pyStrip (l : List Char) : List Char :=
  stripWhen isPySpace l

/-- Python `s.strip(" -")`. -/
def stripSpaceHyphen (l : List Char) : List Char :=
  stripWhen isSpHy l

/-- Does `BRACKET_ID_RE = \s*\[[^\]]+\]\s*$` match starting at this position?
True when, after a run of whitespace, a `[`, a nonempty bracket body without
`]`, and a `]` follow, with only whitespace up to the end of the string. -/
def bracketTail (l : List Char) : Bool :=
  match l.dropWhile isPySpace with
  | '[' :: r =>
    (!(r.takeWhile (fun c => !(c == ']'))).isEmpty) &&
      (match r.dropWhile (fun c => !(c == ']')) with
       | ']' :: r3 => r3.all isPySpace
       | _ => false)
  | _ => false

/-- `BRACKET_ID_RE.sub("", s)`: delete the leftmost (hence unique) match of
the end-anchored trailing-bracket pattern.  Scans left to right, removing
everything from the first position where the pattern matches. -/
def bracketSub : List Char → List Char
  | [] => []
  | c :: cs => if bracketTail (c :: cs) then [] else c :: bracketSub cs

/-- `DJS_COMPACT_RE = ^\s*DJScrew\s*` (IGNORECASE): on success, return the
input with the matched prefix removed. -/
def djsCompactMatch (l : List Char) : Option (List Char) :=
  match stripPrefixCI "DJScrew".data (l.dropWhile isPySpace) with
  | some r => some (r.dropWhile isPySpace)
  | none => none

/-- `DJS_RE = ^\s*DJ\s*Screw\s*` (IGNORECASE): on success, return the input
with the matched prefix removed. -/
def djsMatch (l : List Char) : Option (List Char) :=
  match stripPrefixCI "DJ".data (l.dropWhile isPySpace) with
  | none => none
  | some r =>
    match stripPrefixCI "Screw".data (r.dropWhile isPySpace) with
    | none => none
    | some r2 => some (r2.dropWhile isPySpace)

/-- State machine for `WS_RE.sub(" ", s)`: replace every maximal run of
whitespace by a single space.  `prevWs` records whether the previous
character belonged to a whitespace run whose single `' '` was already
emitted. -/
def wsCollapseAux (prevWs : Bool) : List Char → List Char
  | [] => []
  | c :: cs =>
    if isPySpace c then
      if prevWs then wsCollapseAux true cs else ' ' :: wsCollapseAux true cs
    else c :: wsCollapseAux false cs

/-- `WS_RE.sub(" ", s)`. -/
def wsCollapse (l : List Char) : List Char :=
  wsCollapseAux false l

/-- State machine for `HYPHEN_SPACING_RE.sub(" - ", s)` where the pattern is
`\s*-\s*`: `re.sub` scans left to right and replaces each leftmost match by
`" - "`.  State `some pend` is ordinary scanning with `pend` the reversed
run of whitespace read but not yet emitted (it becomes the leading `\s*` of
a match if a hyphen follows, and is emitted unchanged otherwise); state
`none` is consuming the maximal trailing `\s*` of a just-replaced match. -/
def hyphenAux (st : Option (List Char)) : List Char → List Char
  | [] =>
    match st with
    | some pend => pend.reverse
    | none => []
  | c :: cs =>
    match st with
    | some pend =>
      if isPySpace c then hyphenAux (some (c :: pend)) cs
      else if c == '-' then ' ' :: '-' :: ' ' :: hyphenAux none cs
      else pend.reverse ++ (c :: hyphenAux (some []) cs)
    | none =>
      if isPySpace c then hyphenAux none cs
      else if c == '-' then ' ' :: '-' :: ' ' :: hyphenAux none cs
      else c :: hyphenAux (some []) cs

/-- `HYPHEN_SPACING_RE.sub(" - ", s)`. -/
def hyphenSub (l : List Char) : List Char :=
  hyphenAux (some []) l

/-- `clean_common` from the source: strip, remove the trailing `[id]`,
normalize the compact `DJScrew` prefix, normalize any `DJ Screw` prefix,
collapse whitespace and strip, normalize hyphen spacing, and finally
`strip(" -")`. -/
def clean_common (stem : List Char) : List Char :=
  let s0 := pyStrip stem
  let s1 := bracketSub s0
  let s2 :=
    match djsCompactMatch s1 with
    | some r => "DJ Screw ".data ++ r
    | none => s1
  let s3 :=
    match djsMatch s2 with
    | some r => "DJ Screw ".data ++ r
    | none => s2
  let s4 := pyStrip (wsCollapse s3)
  let s5 := hyphenSub s4
  stripSpaceHyphen s5

/-- `\s+` at the head of the input: requires at least one whitespace
character, consumes the maximal run, returns the rest. -/
def wsPlus (l : List Char) : Option (List Char) :=
  match l with
  | c :: cs => if isPySpace c then some ((c :: cs).dropWhile isPySpace) else none
  | [] => none

/-- `(.*)$` applied to the rest of the input, with the exact Python
semantics of `.` (does not match a newline) and `$` (matches at the end of
the string, or just before a newline that ends the string): succeeds iff
the input contains no newline except possibly as its final character, and
returns the input without that optional final newline. -/
def dotStarDollar (r : List Char) : Option (List Char) :=
  let r2 := if r.getLast? = some '\n' then r.dropLast else r
  if r2.contains '\n' then none else some r2

/-- `CHAPTER_RE = ^DJ Screw\s+Chapter\s+(\d+)\s+(.*)$` (IGNORECASE), used
with `.match`: on success, return the pair (digits of group 1, group 2). -/
def chapterMatch (s : List Char) : Option (List Char × List Char) :=
  match stripPrefixCI "DJ Screw".data s with
  | none => none
  | some r1 =>
    match wsPlus r1 with
    | none => none
    | some r2 =>
      match stripPrefixCI "Chapter".data r2 with
      | none => none
      | some r3 =>
        match wsPlus r3 with
        | none => none
        | some r4 =>
          let ds := r4.takeWhile Char.isDigit
          if ds.isEmpty then none
          else
            match wsPlus (r4.dropWhile Char.isDigit) with
            | none => none
            | some r5 =>
              match dotStarDollar r5 with
              | none => none
              | some g2 => some (ds, g2)

/-- `transform_screw_tapes` from the source: common cleanup, then the
chapter rewrite `f"DJ Screw - Chapter {chap_num} - {rest}"` where `rest`
is group 2 stripped of whitespace and then of `" -"`. -/
def transform_screw_tapes (stem : List Char) : List Char :=
  let s := clean_common stem
  match chapterMatch s with
  | some (chapNum, g2) =>
    "DJ Screw - Chapter ".data ++ chapNum ++ (" - ".data ++ stripSpaceHyphen (pyStrip g2))
  | none => s

/-- `transform_screw_tracks` from the source: just the common cleanup. -/
def transform_screw_tracks (stem : List Char) : List Char :=
  clean_common stem

/-- The processing mode of a folder, an enumerated tag in the spec; the
source dispatches on the strings "tapes" / "tracks". -/
inductive Mode where
  | tapes
  | tracks
deriving DecidableEq

/-- The normalizer contract of the spec: `normalize(stem, mode)` applies the
mode-specific transform of the source. -/
def normalize (stem : List Char) (m : Mode) : List Char :=
  match m with
  | .tapes => transform_screw_tapes stem
  | .tracks => transform_screw_tracks stem

/-- A filesystem path, split as pathlib sees it: the parent directory
(opaque here) and the final name component. -/
structure FsPath where
  dir : List Char
  name : List Char
deriving DecidableEq

/-- Index of the last '.' in a name (`name.rfind('.')` in the pathlib
implementation of `suffix` / `stem`), if any. -/
def lastDotIdx (name : List Char) : Option Nat :=
  match name.reverse.findIdx? (fun c => c == '.') with
  | some j => some (name.length - 1 - j)
  | none => none

/-- `PurePath.suffix` of a final name component: `name[i:]` for the last
dot index `i` when `0 < i < len(name) - 1`, else the empty string. -/
def pSuffix (name : List Char) : List Char :=
  match lastDotIdx name with
  | some i => if 0 < i ∧ i < name.length - 1 then name.drop i else []
  | none => []

/-- `PurePath.stem` of a final name component. -/
def pStem (name : List Char) : List Char :=
  match lastDotIdx name with
  | some i => if 0 < i ∧ i < name.length - 1 then name.take i else name
  | none => name

/-- Fueled digit loop for `natRepr`; the fuel `n + 1` always suffices since
`n / 10 < n` for positive `n`. -/
def natReprAux : Nat → Nat → List Char → List Char
  | 0, _, acc => acc
  | fuel + 1, n, acc =>
    if n < 10 then Nat.digitChar n :: acc
    else natReprAux fuel (n / 10) (Nat.digitChar (n % 10) :: acc)

/-- Decimal rendering of a natural number, as produced by the f-string
`f"{i}"` for the loop counter of `unique_destination`. -/
def natRepr (n : Nat) : List Char :=
  natReprAux (n + 1) n []

/-- The candidate `parent / f"{base} ({i}){ext}"` built by
`unique_destination` from the stem and suffix of `dest`. -/
def suffixedName (dest : FsPath) (i : Nat) : FsPath :=
  ⟨dest.dir, pStem dest.name ++ (" (".data ++ (natRepr i ++ (")".data ++ pSuffix dest.name)))⟩

/-- The `while True` loop of `unique_destination`, rendered with explicit
fuel: try `i`, `i+1`, ... and return the first candidate that does not
exist.  `unique_destination` passes fuel `fs.length + 1`, which always
suffices (`unique_destination_first_free` below); the fuel-exhausted value
is never reached. -/
def findFreeAux (fs : List FsPath) (dest : FsPath) : Nat → Nat → FsPath
  | 0, i => suffixedName dest i
  | fuel + 1, i =>
    if suffixedName dest i ∈ fs then findFreeAux fs dest fuel (i + 1)
    else suffixedName dest i

/-- `unique_destination` from the source, over an explicit filesystem `fs`
(the set of existing paths): if `dest` exists, append `" (1)"`, `" (2)"`,
... before the extension until a non-existing path is found. -/
def unique_destination (fs : List FsPath) (dest : FsPath) : FsPath :=
  if dest ∈ fs then findFreeAux fs dest (fs.length + 1) 1 else dest

/-- The candidate destination built by `plan_rename`:
`src.with_name(new_name + src.suffix.lower())`. -/
def candidateDest (src : FsPath) (newName : List Char) : FsPath :=
  ⟨src.dir, newName ++ (pSuffix src.name).map Char.toLower⟩

/-- `plan_rename` from the source: no plan when the candidate name equals
the source name, otherwise resolve collisions and return the pair. -/
def plan_rename (fs : List FsPath) (src : FsPath) (newName : List Char) :
    Option (FsPath × FsPath) :=
  let dest := candidateDest src newName
  if dest.name = src.name then none
  else some (src, unique_destination fs dest)

/-- A directory entry of the processed folder: its name and whether it is a
regular file. -/
structure Entry where
  name : List Char
  isFile : Bool
deriving DecidableEq

/-- `AUDIO_EXTS` from the source (a set of lowercase extension strings). -/
def AUDIO_EXTS : List (List Char) :=
  [".mp3".data, ".flac".data, ".m4a".data, ".aac".data, ".ogg".data, ".opus".data, ".wav".data]

/-- Code-point lexicographic order on names, the order `sorted` uses for
paths sharing a parent. -/
def lexLe : List Char → List Char → Bool
  | [], _ => true
  | _ :: _, [] => false
  | a :: as, b :: bs => if a == b then lexLe as bs else decide (a.toNat < b.toNat)

/-- Insert an entry into a name-sorted list (stable). -/
def insertSorted (e : Entry) : List Entry → List Entry
  | [] => [e]
  | f :: fs => if lexLe e.name f.name then e :: f :: fs else f :: insertSorted e fs

/-- `sorted(folder.iterdir())`: the entries in ascending name order. -/
def sortEntries : List Entry → List Entry
  | [] => []
  | e :: es => insertSorted e (sortEntries es)

/-- `src.rename(dest)` within the folder: the entry named `srcName` now has
name `destName`. -/
def renameEntry (es : List Entry) (srcName destName : List Char) : List Entry :=
  es.map fun e => if e.name = srcName then { e with name := destName } else e

/-- The mode dispatch inside the loop of `process_folder`: `"tapes"` and
`"tracks"` select a transform, anything else is the `ValueError` case,
rendered as `none`. -/
def modeNewStem (mode stem : List Char) : Option (List Char) :=
  if mode = "tapes".data then some (transform_screw_tapes stem)
  else if mode = "tracks".data then some (transform_screw_tracks stem)
  else none

/-- The loop of `process_folder` over the sorted snapshot of entries.
Returns (error if a `ValueError` escaped, the reported plans in order, the
final folder contents).  The folder contents `es` evolve only under
`apply`; plans reported before an error are kept, as the prints they model
happened before the exception. -/
def processEntries (D mode : List Char) (apply : Bool) :
    List Entry → List Entry → Option (List Char) × List (List Char × List Char) × List Entry
  | [], es => (none, [], es)
  | e :: rest, es =>
    if e.isFile = false then processEntries D mode apply rest es
    else if ¬ ((pSuffix e.name).map Char.toLower ∈ AUDIO_EXTS) then
      processEntries D mode apply rest es
    else
      match modeNewStem mode (pStem e.name) with
      | none => (some ("Unknown mode: ".data ++ mode), [], es)
      | some ns =>
        match plan_rename (es.map fun en => (⟨D, en.name⟩ : FsPath)) ⟨D, e.name⟩ ns with
        | none => processEntries D mode apply rest es
        | some sd =>
          let es2 := if apply then renameEntry es e.name sd.2.name else es
          let r := processEntries D mode apply rest es2
          (r.1, (sd.1.name, sd.2.name) :: r.2.1, r.2.2)

/-- Outcome of `process_folder`: the escaped error if any, the plans
reported in order, and the folder contents afterwards (`none` when the
folder was missing). -/
structure RunResult where
  err : Option (List Char)
  plans : List (List Char × List Char)
  fs : Option (List Entry)
deriving DecidableEq

/-- `process_folder` from the source over an explicit folder state: `none`
models a missing folder (reported and skipped), `some es` an existing
folder with entries `es` in directory `D`. -/
def process_folder (folder : Option (List Entry)) (D mode : List Char) (apply : Bool) :
    RunResult :=
  match folder with
  | none => ⟨none, [], none⟩
  | some es =>
    let r := processEntries D mode apply (sortEntries es) es
    ⟨r.1, r.2.1, some r.2.2⟩

/-- Value of a decimal digit list, inverse to `natRepr`. -/
def evalD (l : List Char) : Nat :=
  l.foldl (fun a c => 10 * a + (c.toNat - 48)) 0

/-- The predicate counting filesystem entries that are suffixed candidates
with index in `[i, i + fuel)`. -/
def collCand (d : FsPath) (i fuel : Nat) (p : FsPath) : Bool :=
  (List.range fuel).any fun k => p == suffixedName d (i + k)

/-- An entry that reaches the mode dispatch of the loop: a regular file
whose lowercased extension is in the audio allow-set. -/
def isAudioEntry (e : Entry) : Bool :=
  e.isFile && decide ((pSuffix e.name).map Char.toLower ∈ AUDIO_EXTS)

/-- The two files of the end-to-end scenario of C4. -/
def folderC4 : List Entry :=
  [⟨"DJScrew Chapter 5 June 27th.mp3".data, true⟩,
   ⟨"dj screw chapter 5 june 27th (copy).mp3".data, true⟩]

/-- Both edges of the output are free of the space and hyphen characters. -/
def noBadEdges (l : List Char) : Bool :=
  (match l.head? with
   | some c => !(isSpHy c)
   | none => true) &&
  (match l.getLast? with
   | some c => !(isSpHy c)
   | none => true)

/-! ### Decimal rendering: the suffixed candidates are pairwise distinct -/

theorem natReprAux_congr :
    ∀ n f1 f2 acc, n < f1 → n < f2 → natReprAux f1 n acc = natReprAux f2 n acc := by
  intro n
  induction n using Nat.strong_induction_on with
  | _ n ih =>
    intro f1 f2 acc h1 h2
    match f1, f2 with
    | f1 + 1, f2 + 1 =>
      simp only [natReprAux]
      split
      · rfl
      · rename_i hn
        have hlt : n / 10 < n := Nat.div_lt_self (by omega) (by omega)
        exact ih (n / 10) hlt _ _ _ (by omega) (by omega)

theorem natReprAux_acc :
    ∀ n f acc, n < f → natReprAux f n acc = natReprAux f n [] ++ acc := by
  intro n
  induction n using Nat.strong_induction_on with
  | _ n ih =>
    intro f acc hf
    match f with
    | f + 1 =>
      simp only [natReprAux]
      split
      · rfl
      · rename_i hn
        have hlt : n / 10 < n := Nat.div_lt_self (by omega) (by omega)
        rw [ih (n / 10) hlt f _ (by omega), ih (n / 10) hlt f [Nat.digitChar (n % 10)] (by omega),
          List.append_assoc]
        rfl

theorem natRepr_small {n : Nat} (h : n < 10) : natRepr n = [Nat.digitChar n] := by
  simp [natRepr, natReprAux, h]

theorem natRepr_step {n : Nat} (h : 10 ≤ n) :
    natRepr n = natRepr (n / 10) ++ [Nat.digitChar (n % 10)] := by
  have hlt : n / 10 < n := Nat.div_lt_self (by omega) (by omega)
  unfold natRepr
  conv_lhs => rw [natReprAux]
  rw [if_neg (by omega), natReprAux_acc (n / 10) n _ hlt,
    natReprAux_congr (n / 10) n (n / 10 + 1) [] hlt (Nat.lt_succ_self _)]

theorem digitChar_val {k : Nat} (h : k < 10) : (Nat.digitChar k).toNat - 48 = k := by
  interval_cases k <;> rfl

theorem evalD_natRepr : ∀ n, evalD (natRepr n) = n := by
  intro n
  induction n using Nat.strong_induction_on with
  | _ n ih =>
    by_cases h : n < 10
    · rw [natRepr_small h]
      show 10 * 0 + ((Nat.digitChar n).toNat - 48) = n
      rw [digitChar_val h]
      omega
    · have hlt : n / 10 < n := Nat.div_lt_self (by omega) (by omega)
      rw [natRepr_step (by omega)]
      show List.foldl _ 0 (natRepr (n / 10) ++ [Nat.digitChar (n % 10)]) = n
      rw [List.foldl_append]
      show 10 * evalD (natRepr (n / 10)) + ((Nat.digitChar (n % 10)).toNat - 48) = n
      rw [ih (n / 10) hlt, digitChar_val (Nat.mod_lt _ (by omega))]
      omega

theorem natRepr_inj {m n : Nat} (h : natRepr m = natRepr n) : m = n := by
  rw [← evalD_natRepr m, h, evalD_natRepr]

theorem suffixedName_inj {d : FsPath} {i j : Nat} (h : suffixedName d i = suffixedName d j) :
    i = j := by
  have hname : suffixedName d i = suffixedName d j → natRepr i ++ (")".data ++ pSuffix d.name) =
      natRepr j ++ (")".data ++ pSuffix d.name) := by
    intro hh
    have := congrArg FsPath.name hh
    simp only [suffixedName] at this
    exact List.append_cancel_left (List.append_cancel_left this)
  apply natRepr_inj
  exact List.append_cancel_right (hname h)

/-! ### The collision loop of `unique_destination` -/

theorem countP_add_le_of {α : Type} (p q r : α → Bool)
    (hp : ∀ x, p x = true → r x = true) (hq : ∀ x, q x = true → r x = true)
    (hpq : ∀ x, ¬(p x = true ∧ q x = true)) :
    ∀ l : List α, l.countP p + l.countP q ≤ l.countP r := by
  intro l
  induction l with
  | nil => simp [List.countP_nil]
  | cons a t ih =>
    rw [List.countP_cons, List.countP_cons, List.countP_cons]
    have h1 := hp a
    have h2 := hq a
    have h3 := hpq a
    cases hpa : p a <;> cases hqa : q a <;> cases hra : r a <;> simp_all <;> omega

theorem collCand_iff {d : FsPath} {i fuel : Nat} {p : FsPath} :
    collCand d i fuel p = true ↔ ∃ k, k < fuel ∧ p = suffixedName d (i + k) := by
  simp [collCand, List.any_eq_true, List.mem_range]

theorem findFreeAux_spec (fs : List FsPath) (d : FsPath) :
    ∀ fuel i, fs.countP (collCand d i fuel) < fuel →
      ∃ N, i ≤ N ∧ findFreeAux fs d fuel i = suffixedName d N ∧ suffixedName d N ∉ fs ∧
        ∀ k, i ≤ k → k < N → suffixedName d k ∈ fs := by
  intro fuel
  induction fuel with
  | zero => intro i h; omega
  | succ fuel ih =>
    intro i h
    by_cases hmem : suffixedName d i ∈ fs
    · have hki : ∀ x, (fun p => p == suffixedName d i) x = true → collCand d i (fuel + 1) x = true := by
        intro x hx
        rw [beq_iff_eq] at hx
        exact collCand_iff.mpr ⟨0, by omega, by simpa using hx⟩
      have hsh : ∀ x, collCand d (i + 1) fuel x = true → collCand d i (fuel + 1) x = true := by
        intro x hx
        obtain ⟨k, hk, hxe⟩ := collCand_iff.mp hx
        exact collCand_iff.mpr ⟨k + 1, by omega, by rw [hxe]; ring_nf⟩
      have hdisj : ∀ x, ¬(collCand d (i + 1) fuel x = true ∧ (fun p => p == suffixedName d i) x = true) := by
        intro x ⟨hx1, hx2⟩
        rw [beq_iff_eq] at hx2
        obtain ⟨k, hk, hxe⟩ := collCand_iff.mp hx1
        have : i = i + 1 + k := suffixedName_inj (hx2 ▸ hxe)
        omega
      have hone : 0 < fs.countP (fun p => p == suffixedName d i) := by
        rw [List.countP_pos_iff]
        exact ⟨suffixedName d i, hmem, beq_self_eq_true _⟩
      have hle := countP_add_le_of (collCand d (i + 1) fuel) (fun p => p == suffixedName d i)
        (collCand d i (fuel + 1)) hsh hki hdisj fs
      have hrec : fs.countP (collCand d (i + 1) fuel) < fuel := by omega
      obtain ⟨N, hN1, hN2, hN3, hN4⟩ := ih (i + 1) hrec
      refine ⟨N, by omega, ?_, hN3, ?_⟩
      · rw [findFreeAux, if_pos hmem]
        exact hN2
      · intro k hk1 hk2
        rcases Nat.eq_or_lt_of_le hk1 with hk | hk
        · rw [← hk]; exact hmem
        · exact hN4 k hk hk2
    · exact ⟨i, Nat.le_refl _, by rw [findFreeAux, if_neg hmem], hmem, fun k hk1 hk2 => by omega⟩

/-- Claim C10 and the safety half of C2 both rest on this: with fuel
`fs.length + 1` the loop always finds a free candidate. -/
theorem findFreeAux_free (fs : List FsPath) (d : FsPath) :
    ∃ N, 1 ≤ N ∧ findFreeAux fs d (fs.length + 1) 1 = suffixedName d N ∧
      suffixedName d N ∉ fs ∧ ∀ k, 1 ≤ k → k < N → suffixedName d k ∈ fs := by
  apply findFreeAux_spec
  have := List.countP_le_length (p := collCand d 1 (fs.length + 1)) (l := fs)
  omega

theorem pStem_append_pSuffix (n : List Char) : pStem n ++ pSuffix n = n := by
  unfold pStem pSuffix
  cases h : lastDotIdx n with
  | none => simp
  | some i =>
    show (if 0 < i ∧ i < n.length - 1 then List.take i n else n) ++
        (if 0 < i ∧ i < n.length - 1 then List.drop i n else []) = n
    by_cases hc : 0 < i ∧ i < n.length - 1
    · rw [if_pos hc, if_pos hc]
      exact List.take_append_drop i n
    · rw [if_neg hc, if_neg hc]
      simp

/-- Claim C2: when `plan_rename` returns a plan, the destination does not
exist, and when the unsuffixed candidate exists the destination is the
candidate with `" (N)"` inserted before the extension for the smallest
`N ≥ 1` whose path does not exist. -/
theorem plan_rename_collision_safe (fs : List FsPath) (src : FsPath) (nm : List Char)
    (s d : FsPath) (h : plan_rename fs src nm = some (s, d)) :
    d ∉ fs ∧ (candidateDest src nm ∈ fs →
      ∃ N, 1 ≤ N ∧ d = suffixedName (candidateDest src nm) N ∧
        ∀ k, 1 ≤ k → k < N → suffixedName (candidateDest src nm) k ∈ fs) := by
  rw [plan_rename] at h
  split at h
  next heq => cases h
  next hne =>
    simp only [Option.some.injEq, Prod.mk.injEq] at h
    obtain ⟨hs, hd⟩ := h
    subst hd
    rw [unique_destination]
    by_cases hmem : candidateDest src nm ∈ fs
    · rw [if_pos hmem]
      obtain ⟨N, hN1, hN2, hN3, hN4⟩ := findFreeAux_free fs (candidateDest src nm)
      rw [hN2]
      exact ⟨hN3, fun _ => ⟨N, hN1, rfl, hN4⟩⟩
    · rw [if_neg hmem]
      exact ⟨hmem, fun hc => absurd hc hmem⟩

/-- Witness for C2 at a concrete collision: renaming `b.mp3` to stem `a`
while `a.mp3` exists yields `a (1).mp3`. -/
theorem plan_rename_collision_safe_witness :
    (⟨"d".data, "a (1).mp3".data⟩ : FsPath) ∉
        [(⟨"d".data, "a.mp3".data⟩ : FsPath), ⟨"d".data, "b.mp3".data⟩] ∧
      (candidateDest ⟨"d".data, "b.mp3".data⟩ "a".data ∈
          [(⟨"d".data, "a.mp3".data⟩ : FsPath), ⟨"d".data, "b.mp3".data⟩] →
        ∃ N, 1 ≤ N ∧
          (⟨"d".data, "a (1).mp3".data⟩ : FsPath) =
            suffixedName (candidateDest ⟨"d".data, "b.mp3".data⟩ "a".data) N ∧
          ∀ k, 1 ≤ k → k < N →
            suffixedName (candidateDest ⟨"d".data, "b.mp3".data⟩ "a".data) k ∈
              [(⟨"d".data, "a.mp3".data⟩ : FsPath), ⟨"d".data, "b.mp3".data⟩]) :=
  plan_rename_collision_safe _ ⟨"d".data, "b.mp3".data⟩ "a".data ⟨"d".data, "b.mp3".data⟩
    ⟨"d".data, "a (1).mp3".data⟩ (by decide)

/-- Claim C10: `unique_destination` returns its argument when that path
does not exist, and otherwise the first suffixed candidate `" (N)"`
(`N = 1, 2, ...`) that does not exist; the fueled rendering of the
`while True` loop always reaches such a candidate. -/
theorem unique_destination_first_free (fs : List FsPath) (dest : FsPath) :
    (dest ∉ fs → unique_destination fs dest = dest) ∧
    (dest ∈ fs → ∃ N, 1 ≤ N ∧ unique_destination fs dest = suffixedName dest N ∧
      suffixedName dest N ∉ fs ∧ ∀ k, 1 ≤ k → k < N → suffixedName dest k ∈ fs) := by
  constructor
  · intro h
    rw [unique_destination, if_neg h]
  · intro h
    rw [unique_destination, if_pos h]
    exact findFreeAux_free fs dest

/-- Witness for C10: with `t.mp3` and `t (1).mp3` both present, the loop
returns the candidate for `N = 2`. -/
theorem unique_destination_first_free_witness :
    ∃ N, 1 ≤ N ∧
      unique_destination [(⟨"e".data, "t.mp3".data⟩ : FsPath), ⟨"e".data, "t (1).mp3".data⟩]
          ⟨"e".data, "t.mp3".data⟩ =
        suffixedName ⟨"e".data, "t.mp3".data⟩ N ∧
      suffixedName ⟨"e".data, "t.mp3".data⟩ N ∉
        [(⟨"e".data, "t.mp3".data⟩ : FsPath), ⟨"e".data, "t (1).mp3".data⟩] ∧
      ∀ k, 1 ≤ k → k < N →
        suffixedName ⟨"e".data, "t.mp3".data⟩ k ∈
          [(⟨"e".data, "t.mp3".data⟩ : FsPath), ⟨"e".data, "t (1).mp3".data⟩] :=
  (unique_destination_first_free _ _).2 (by decide)

/-- Counterexample for C3 as stated: for `song.MP3` the normalized stem in
tracks mode equals the current stem, yet a plan is returned, because the
candidate name lowercases the extension. -/
theorem plan_rename_noop_counterexample :
    normalize (pStem "song.MP3".data) Mode.tracks = pStem "song.MP3".data ∧
      plan_rename [⟨"d".data, "song.MP3".data⟩] ⟨"d".data, "song.MP3".data⟩
        (normalize (pStem "song.MP3".data) Mode.tracks) ≠ none := by decide

/-- Claim C3 amended: no plan is returned whenever the normalized stem
equals the current stem and the extension is already lowercase. -/
theorem plan_rename_noop_of_lower_ext (fs : List FsPath) (src : FsPath) (m : Mode)
    (h1 : normalize (pStem src.name) m = pStem src.name)
    (h2 : (pSuffix src.name).map Char.toLower = pSuffix src.name) :
    plan_rename fs src (normalize (pStem src.name) m) = none := by
  rw [plan_rename]
  have hn : (candidateDest src (normalize (pStem src.name) m)).name = src.name := by
    simp only [candidateDest]
    rw [h1, h2, pStem_append_pSuffix]
  rw [if_pos hn]

/-- Witness for amended C3: an already-normalized stem with a lowercase
extension produces no plan. -/
theorem plan_rename_noop_of_lower_ext_witness :
    plan_rename [(⟨"d".data, "song.mp3".data⟩ : FsPath)] ⟨"d".data, "song.mp3".data⟩
      (normalize (pStem "song.mp3".data) Mode.tracks) = none :=
  plan_rename_noop_of_lower_ext _ _ _ (by decide) (by decide)

/-! ### The folder processor -/

theorem processEntries_fs_dryrun (D mode : List Char) :
    ∀ l es, (processEntries D mode false l es).2.2 = es := by
  intro l
  induction l with
  | nil => intro es; rfl
  | cons e rest ih =>
    intro es
    rw [processEntries]
    split
    · exact ih es
    · split
      · exact ih es
      · split
        · rfl
        · split
          · exact ih es
          · exact ih es

/-- Claim C8: with the apply flag false, `process_folder` computes plans but
leaves the folder contents exactly as they were. -/
theorem process_folder_dry_run_pure (folder : Option (List Entry)) (D mode : List Char) :
    (process_folder folder D mode false).fs = folder := by
  cases folder with
  | none => rfl
  | some es =>
    show some (processEntries D mode false (sortEntries es) es).2.2 = some es
    rw [processEntries_fs_dryrun]

theorem processEntries_err_unknown (D mode : List Char) (apply : Bool)
    (h1 : mode ≠ "tapes".data) (h2 : mode ≠ "tracks".data) :
    ∀ l es, (processEntries D mode apply l es).1 =
      if l.any isAudioEntry then some ("Unknown mode: ".data ++ mode) else none := by
  intro l
  induction l with
  | nil => intro es; rfl
  | cons e rest ih =>
    intro es
    rw [processEntries]
    by_cases hf : e.isFile = false
    · rw [if_pos hf, ih es]
      have ha : isAudioEntry e = false := by simp [isAudioEntry, hf]
      simp [List.any_cons, ha]
    · rw [if_neg hf]
      by_cases hext : (pSuffix e.name).map Char.toLower ∈ AUDIO_EXTS
      · rw [if_neg (by simpa using hext)]
        have hmn : modeNewStem mode (pStem e.name) = none := by
          simp [modeNewStem, h1, h2]
        rw [hmn]
        have ha : isAudioEntry e = true := by
          simp [isAudioEntry, hext]
          simpa using hf
        simp [List.any_cons, ha]
      · rw [if_pos (by simpa using hext), ih es]
        have ha : isAudioEntry e = false := by simp [isAudioEntry, hext]
        simp [List.any_cons, ha]

theorem processEntries_err_known (D mode : List Char) (apply : Bool)
    (h : mode = "tapes".data ∨ mode = "tracks".data) :
    ∀ l es, (processEntries D mode apply l es).1 = none := by
  intro l
  induction l with
  | nil => intro es; rfl
  | cons e rest ih =>
    intro es
    rw [processEntries]
    split
    · exact ih es
    · split
      · exact ih es
      · split
        next hns =>
          exfalso
          rcases h with h | h <;> simp [modeNewStem, h] at hns
        next ns hns =>
          split
          · exact ih es
          · exact ih _

theorem mem_insertSorted {x e : Entry} : ∀ l, x ∈ insertSorted e l ↔ x = e ∨ x ∈ l := by
  intro l
  induction l with
  | nil => simp [insertSorted]
  | cons f fs ih =>
    rw [insertSorted]
    split
    · simp
    · simp only [List.mem_cons, ih]
      tauto

theorem mem_sortEntries {x : Entry} : ∀ l, x ∈ sortEntries l ↔ x ∈ l := by
  intro l
  induction l with
  | nil => simp [sortEntries]
  | cons e es ih =>
    rw [sortEntries]
    rw [mem_insertSorted, ih]
    simp

theorem any_sortEntries (p : Entry → Bool) (l : List Entry) :
    (sortEntries l).any p = l.any p := by
  cases ha : l.any p with
  | true =>
    rw [List.any_eq_true] at ha ⊢
    obtain ⟨x, hx, hp⟩ := ha
    exact ⟨x, (mem_sortEntries l).mpr hx, hp⟩
  | false =>
    rw [← Bool.not_eq_true] at ha ⊢
    intro hc
    apply ha
    rw [List.any_eq_true] at hc ⊢
    obtain ⟨x, hx, hp⟩ := hc
    exact ⟨x, (mem_sortEntries l).mp hx, hp⟩

/-- Counterexample for C7 as stated: an existing folder with no audio files
processed with an unknown mode raises nothing, because the mode check sits
inside the per-file loop. -/
theorem process_folder_unknown_mode_counterexample :
    (process_folder (some []) "d".data "bogus".data false).err = none := by decide

/-- Claim C7 amended: with an unknown mode, the invalid-argument error
`"Unknown mode: <mode>"` escapes iff the existing folder contains at least
one regular file with an audio extension; with a known mode no error is
raised at the folder-processing layer. -/
theorem process_folder_unknown_mode_amended (D mode : List Char) (apply : Bool)
    (es : List Entry) :
    (mode ≠ "tapes".data → mode ≠ "tracks".data →
      ((process_folder (some es) D mode apply).err = some ("Unknown mode: ".data ++ mode) ↔
        ∃ e ∈ es, e.isFile = true ∧ (pSuffix e.name).map Char.toLower ∈ AUDIO_EXTS)) ∧
    ((mode = "tapes".data ∨ mode = "tracks".data) →
      (process_folder (some es) D mode apply).err = none) := by
  constructor
  · intro h1 h2
    show (processEntries D mode apply (sortEntries es) es).1 = _ ↔ _
    rw [processEntries_err_unknown D mode apply h1 h2, any_sortEntries]
    have hiff : es.any isAudioEntry = true ↔
        ∃ e ∈ es, e.isFile = true ∧ (pSuffix e.name).map Char.toLower ∈ AUDIO_EXTS := by
      simp [List.any_eq_true, isAudioEntry]
    cases ha : es.any isAudioEntry with
    | true => simp [hiff.mp ha]
    | false =>
      have : ¬ ∃ e ∈ es, e.isFile = true ∧ (pSuffix e.name).map Char.toLower ∈ AUDIO_EXTS := by
        intro hc
        rw [← hiff] at hc
        simp [ha] at hc
      simp [this]
  · intro h
    show (processEntries D mode apply (sortEntries es) es).1 = none
    exact processEntries_err_known D mode apply h _ _

/-- Witness for amended C7: a folder holding one audio file and the unknown
mode `"zz"` raises the invalid-argument error. -/
theorem process_folder_unknown_mode_witness :
    (process_folder (some [⟨"a.mp3".data, true⟩]) "d".data "zz".data false).err =
      some ("Unknown mode: ".data ++ "zz".data) := by
  have h := (process_folder_unknown_mode_amended "d".data "zz".data false
    [⟨"a.mp3".data, true⟩]).1 (by decide) (by decide)
  exact h.mpr ⟨⟨"a.mp3".data, true⟩, by decide, by decide, by decide⟩

/-! ### Concrete normalization claims -/

/-- Claim C6: compact-prefix normalization of the chapter form. -/
theorem normalize_compact_chapter120 :
    normalize "DJScrew Chapter 120 10 Deep".data Mode.tapes =
      "DJ Screw - Chapter 120 - 10 Deep".data := by decide

/-- Counterexample for C5 as stated: tapes-mode normalization of
`"DJ Screw Chapter 42"` does not end with `"Chapter 42 - "`. -/
theorem chapter_empty_remainder_counterexample :
    ("Chapter 42 - ".data.isSuffixOf
      (normalize "DJ Screw Chapter 42".data Mode.tapes)) = false := by decide

/-- Claim C5 amended: on the empty-remainder input the chapter pattern does
not match at all, because `\s+` after the number requires whitespace and a
following remainder; normalization returns the cleaned input unchanged and
no trailing separator artifact is produced. -/
theorem chapter_empty_remainder_no_artifact :
    chapterMatch (clean_common "DJ Screw Chapter 42".data) = none ∧
      normalize "DJ Screw Chapter 42".data Mode.tapes = "DJ Screw Chapter 42".data := by decide

/-- Counterexample for C4 as stated: in the dry run the two reported
destinations are not both `"DJ Screw - Chapter 5 - June 27th.mp3"` with the
second resolved to `" (1)"`; the second file keeps its lowercase remainder
and its `"(copy)"` marker, so there is no collision. -/
theorem process_folder_scenario_counterexample :
    (process_folder (some folderC4) "d".data "tapes".data false).plans.map Prod.snd ≠
      ["DJ Screw - Chapter 5 - June 27th.mp3".data,
       "DJ Screw - Chapter 5 - June 27th (1).mp3".data] := by decide

/-- Claim C4 amended: the dry run reports exactly two plans, the first
toward `"DJ Screw - Chapter 5 - June 27th.mp3"`, the second toward
`"DJ Screw - Chapter 5 - june 27th (copy).mp3"` (remainder case preserved,
parenthesized suffix kept, hence no collision and no `" (1)"`), raises no
error, and leaves the folder contents unchanged. -/
theorem process_folder_scenario_amended :
    (process_folder (some folderC4) "d".data "tapes".data false).err = none ∧
    (process_folder (some folderC4) "d".data "tapes".data false).plans =
      [("DJScrew Chapter 5 June 27th.mp3".data,
        "DJ Screw - Chapter 5 - June 27th.mp3".data),
       ("dj screw chapter 5 june 27th (copy).mp3".data,
        "DJ Screw - Chapter 5 - june 27th (copy).mp3".data)] ∧
    (process_folder (some folderC4) "d".data "tapes".data false).fs = some folderC4 := by decide

/-! ### Idempotence (claim C1) -/

/-- Counterexample for C1 as stated: the bracket rule strips only the last
trailing tag, so `"[x][y]"` normalizes to `"[x]"`, which normalizes further
to the empty string. -/
theorem normalize_idem_counterexample :
    normalize (normalize "[x][y]".data Mode.tracks) Mode.tracks ≠
      normalize "[x][y]".data Mode.tracks := by decide

/-- The rebuilt chapter form `"DJ Screw - Chapter ..."` is never matched
again by `CHAPTER_RE`: after the literal `"DJ Screw"` the pattern requires
whitespace and then `"Chapter"`, but the rebuilt form has `" - "`. -/
theorem chapterMatch_rebuild_none (l : List Char) :
    chapterMatch ('D' :: 'J' :: ' ' :: 'S' :: 'c' :: 'r' :: 'e' :: 'w' :: ' ' :: '-' :: l) =
      none := rfl

/-- Claim C1 amended: normalization is idempotent on every stem whose
normalized form is left unchanged by the common cleanup. -/
theorem normalize_idem_of_clean_fixed (s : List Char) (m : Mode)
    (h : clean_common (normalize s m) = normalize s m) :
    normalize (normalize s m) m = normalize s m := by
  cases m with
  | tracks => exact h
  | tapes =>
    cases hm : chapterMatch (clean_common s) with
    | none =>
      have ht : normalize s Mode.tapes = clean_common s := by
        simp only [normalize, transform_screw_tapes, hm]
      rw [ht] at h ⊢
      simp only [normalize, transform_screw_tapes, h, hm]
    | some p =>
      obtain ⟨n, g⟩ := p
      have ht : normalize s Mode.tapes =
          "DJ Screw - Chapter ".data ++ n ++ (" - ".data ++ stripSpaceHyphen (pyStrip g)) := by
        simp only [normalize, transform_screw_tapes, hm]
      have hnone : chapterMatch ("DJ Screw - Chapter ".data ++ n ++
          (" - ".data ++ stripSpaceHyphen (pyStrip g))) = none :=
        chapterMatch_rebuild_none ((' ' :: 'C' :: 'h' :: 'a' :: 'p' :: 't' :: 'e' :: 'r' ::
          ' ' :: []) ++ n ++ (" - ".data ++ stripSpaceHyphen (pyStrip g)))
      rw [ht] at h ⊢
      simp only [normalize, transform_screw_tapes, h, hnone]

/-- Witness for amended C1: a chapter-form stem whose normalized output is
fixed by the common cleanup. -/
theorem normalize_idem_of_clean_fixed_witness :
    normalize (normalize "DJScrew Chapter 5 Intro".data Mode.tapes) Mode.tapes =
      normalize "DJScrew Chapter 5 Intro".data Mode.tapes :=
  normalize_idem_of_clean_fixed "DJScrew Chapter 5 Intro".data Mode.tapes (by decide)

/-! ### The trimmed-output invariant (claim C9) -/

theorem head_dropWhile_false (p : Char → Bool) (l : List Char) {c : Char}
    (h : (l.dropWhile p).head? = some c) : p c = false := by
  have h2 := List.head?_dropWhile_not p l
  rw [h] at h2
  exact h2

theorem dropWhile_sfx (p : Char → Bool) : ∀ l : List Char, l.dropWhile p <:+ l
  | [] => List.suffix_refl _
  | a :: t => by
    rw [List.dropWhile_cons]
    split
    · exact (dropWhile_sfx p t).trans (List.suffix_cons a t)
    · exact List.suffix_refl _

theorem stripWhen_getLast_false (p : Char → Bool) (l : List Char) {c : Char}
    (h : (stripWhen p l).getLast? = some c) : p c = false := by
  rw [stripWhen, rstripWhen, List.getLast?_reverse] at h
  exact head_dropWhile_false p _ h

theorem stripWhen_head_false (p : Char → Bool) (l : List Char) {c : Char}
    (h : (stripWhen p l).head? = some c) : p c = false := by
  rw [stripWhen, rstripWhen] at h
  have hpfx : ((l.dropWhile p).reverse.dropWhile p).reverse <+: l.dropWhile p := by
    have h1 := dropWhile_sfx p (l.dropWhile p).reverse
    have h2 := List.reverse_prefix.mpr h1
    rwa [List.reverse_reverse] at h2
  obtain ⟨t, ht⟩ := hpfx
  cases hx : ((l.dropWhile p).reverse.dropWhile p).reverse with
  | nil => rw [hx] at h; cases h
  | cons a u =>
    rw [hx] at h ht
    simp only [List.head?_cons, Option.some.injEq] at h
    subst h
    apply head_dropWhile_false p l
    rw [← ht]
    rfl

theorem stripWhen_subset {p : Char → Bool} {l : List Char} {x : Char}
    (h : x ∈ stripWhen p l) : x ∈ l := by
  rw [stripWhen, rstripWhen, List.mem_reverse] at h
  have h1 : x ∈ (l.dropWhile p).reverse :=
    List.Sublist.mem h (dropWhile_sfx p (l.dropWhile p).reverse).sublist
  rw [List.mem_reverse] at h1
  exact List.Sublist.mem h1 (dropWhile_sfx p l).sublist

theorem stripWhen_eq_nil_all {p : Char → Bool} {l : List Char}
    (h : stripWhen p l = []) : ∀ x ∈ l, p x = true := by
  rw [stripWhen, rstripWhen, List.reverse_eq_nil_iff, List.dropWhile_eq_nil_iff] at h
  have hm : ∀ x ∈ l.dropWhile p, p x = true := by
    intro x hx
    exact h x (List.mem_reverse.mpr hx)
  intro x hx
  rw [← List.takeWhile_append_dropWhile (p := p) (l := l), List.mem_append] at hx
  rcases hx with hx | hx
  · exact List.mem_takeWhile_imp hx
  · exact hm x hx

theorem stripWhen_decomp (p : Char → Bool) (l : List Char) :
    ∃ u v, l = u ++ stripWhen p l ++ v ∧ (∀ x ∈ u, p x = true) ∧ (∀ x ∈ v, p x = true) := by
  refine ⟨l.takeWhile p, ((l.dropWhile p).reverse.takeWhile p).reverse, ?_, ?_, ?_⟩
  · have hm : l.dropWhile p =
        stripWhen p l ++ ((l.dropWhile p).reverse.takeWhile p).reverse := by
      rw [stripWhen, rstripWhen, ← List.reverse_append, List.takeWhile_append_dropWhile,
        List.reverse_reverse]
    conv_lhs => rw [← List.takeWhile_append_dropWhile (p := p) (l := l), hm]
    rw [List.append_assoc]
  · intro x hx
    exact List.mem_takeWhile_imp hx
  · intro x hx
    rw [List.mem_reverse] at hx
    exact List.mem_takeWhile_imp hx

theorem wsCollapseAux_mem :
    ∀ (l : List Char) (b : Bool) (x : Char), x ∈ wsCollapseAux b l →
      x = ' ' ∨ (x ∈ l ∧ isPySpace x = false) := by
  intro l
  induction l with
  | nil => intro b x hx; cases hx
  | cons c cs ih =>
    intro b x hx
    rw [wsCollapseAux] at hx
    split at hx
    · split at hx
      · rcases ih true x hx with h | ⟨h1, h2⟩
        · exact Or.inl h
        · exact Or.inr ⟨List.mem_cons_of_mem c h1, h2⟩
      · rcases List.mem_cons.mp hx with h | h
        · exact Or.inl h
        · rcases ih true x h with h2 | ⟨h3, h4⟩
          · exact Or.inl h2
          · exact Or.inr ⟨List.mem_cons_of_mem c h3, h4⟩
    · rcases List.mem_cons.mp hx with h | h
      · subst h
        next hc => exact Or.inr ⟨List.mem_cons_self x cs, by simpa using hc⟩
      · rcases ih false x h with h2 | ⟨h3, h4⟩
        · exact Or.inl h2
        · exact Or.inr ⟨List.mem_cons_of_mem c h3, h4⟩

theorem hyphenAux_nil (st : Option (List Char)) :
    hyphenAux st [] = match st with | some pend => pend.reverse | none => [] := rfl

theorem hyphenAux_cons_some (pend : List Char) (c : Char) (cs : List Char) :
    hyphenAux (some pend) (c :: cs) =
      if isPySpace c then hyphenAux (some (c :: pend)) cs
      else if c == '-' then ' ' :: '-' :: ' ' :: hyphenAux none cs
      else pend.reverse ++ (c :: hyphenAux (some []) cs) := rfl

theorem hyphenAux_cons_none (c : Char) (cs : List Char) :
    hyphenAux none (c :: cs) =
      if isPySpace c then hyphenAux none cs
      else if c == '-' then ' ' :: '-' :: ' ' :: hyphenAux none cs
      else c :: hyphenAux (some []) cs := rfl

theorem hyphenAux_mem :
    ∀ (l : List Char) (st : Option (List Char)) (x : Char), x ∈ hyphenAux st l →
      x = ' ' ∨ x = '-' ∨ x ∈ l ∨ (∃ pend, st = some pend ∧ x ∈ pend) := by
  intro l
  induction l with
  | nil =>
    intro st x hx
    cases st with
    | some pend =>
      rw [hyphenAux_nil] at hx
      right; right; right
      exact ⟨pend, rfl, List.mem_reverse.mp hx⟩
    | none =>
      rw [hyphenAux_nil] at hx
      cases hx
  | cons c cs ih =>
    intro st x hx
    cases st with
    | some pend =>
      rw [hyphenAux_cons_some] at hx
      split at hx
      · rcases ih (some (c :: pend)) x hx with h | h | h | ⟨p2, hp2, hx2⟩
        · exact Or.inl h
        · exact Or.inr (Or.inl h)
        · exact Or.inr (Or.inr (Or.inl (List.mem_cons_of_mem c h)))
        · simp only [Option.some.injEq] at hp2
          subst hp2
          rcases List.mem_cons.mp hx2 with h | h
          · exact Or.inr (Or.inr (Or.inl (h ▸ List.mem_cons_self c cs)))
          · exact Or.inr (Or.inr (Or.inr ⟨pend, rfl, h⟩))
      · split at hx
        · rcases List.mem_cons.mp hx with h | hx2
          · exact Or.inl h
          rcases List.mem_cons.mp hx2 with h | hx3
          · exact Or.inr (Or.inl h)
          rcases List.mem_cons.mp hx3 with h | hx4
          · exact Or.inl h
          · rcases ih none x hx4 with h | h | h | ⟨p2, hp2, _⟩
            · exact Or.inl h
            · exact Or.inr (Or.inl h)
            · exact Or.inr (Or.inr (Or.inl (List.mem_cons_of_mem c h)))
            · cases hp2
        · rw [List.mem_append] at hx
          rcases hx with h | hx2
          · exact Or.inr (Or.inr (Or.inr ⟨pend, rfl, List.mem_reverse.mp h⟩))
          rcases List.mem_cons.mp hx2 with h | hx3
          · exact Or.inr (Or.inr (Or.inl (h ▸ List.mem_cons_self c cs)))
          · rcases ih (some []) x hx3 with h | h | h | ⟨p2, hp2, hxp⟩
            · exact Or.inl h
            · exact Or.inr (Or.inl h)
            · exact Or.inr (Or.inr (Or.inl (List.mem_cons_of_mem c h)))
            · simp only [Option.some.injEq] at hp2
              subst hp2
              cases hxp
    | none =>
      rw [hyphenAux_cons_none] at hx
      split at hx
      · rcases ih none x hx with h | h | h | ⟨p2, hp2, _⟩
        · exact Or.inl h
        · exact Or.inr (Or.inl h)
        · exact Or.inr (Or.inr (Or.inl (List.mem_cons_of_mem c h)))
        · cases hp2
      · split at hx
        · rcases List.mem_cons.mp hx with h | hx2
          · exact Or.inl h
          rcases List.mem_cons.mp hx2 with h | hx3
          · exact Or.inr (Or.inl h)
          rcases List.mem_cons.mp hx3 with h | hx4
          · exact Or.inl h
          · rcases ih none x hx4 with h | h | h | ⟨p2, hp2, _⟩
            · exact Or.inl h
            · exact Or.inr (Or.inl h)
            · exact Or.inr (Or.inr (Or.inl (List.mem_cons_of_mem c h)))
            · cases hp2
        · rcases List.mem_cons.mp hx with h | hx2
          · exact Or.inr (Or.inr (Or.inl (h ▸ List.mem_cons_self c cs)))
          · rcases ih (some []) x hx2 with h | h | h | ⟨p2, hp2, hxp⟩
            · exact Or.inl h
            · exact Or.inr (Or.inl h)
            · exact Or.inr (Or.inr (Or.inl (List.mem_cons_of_mem c h)))
            · simp only [Option.some.injEq] at hp2
              subst hp2
              cases hxp

/-- Every whitespace character surviving the collapse, hyphen and strip
stages is a plain `' '`. -/
theorem pipeline_ws_space (t : List Char) :
    ∀ x ∈ stripSpaceHyphen (hyphenAux (some []) (pyStrip (wsCollapseAux false t))),
      isPySpace x = true → x = ' ' := by
  intro x hx hws
  have h1 : x ∈ hyphenAux (some []) (pyStrip (wsCollapseAux false t)) := stripWhen_subset hx
  rcases hyphenAux_mem _ _ x h1 with h | h | h | ⟨pend, hp, hxp⟩
  · exact h
  · rw [h] at hws; cases hws
  · have h2 : x ∈ wsCollapseAux false t := stripWhen_subset h
    rcases wsCollapseAux_mem t false x h2 with h3 | ⟨_, h4⟩
    · exact h3
    · rw [h4] at hws; cases hws
  · simp only [Option.some.injEq] at hp
    subst hp
    cases hxp

theorem clean_common_ws_space (s : List Char) :
    ∀ x ∈ clean_common s, isPySpace x = true → x = ' ' :=
  fun x hx hws => pipeline_ws_space _ x hx hws

theorem clean_common_getLast_ok (s : List Char) {c : Char}
    (h : (clean_common s).getLast? = some c) : isSpHy c = false :=
  stripWhen_getLast_false isSpHy _ h

theorem clean_common_head_ok (s : List Char) {c : Char}
    (h : (clean_common s).head? = some c) : isSpHy c = false :=
  stripWhen_head_false isSpHy _ h

theorem stripPrefixCI_decomp : ∀ (pat s r : List Char), stripPrefixCI pat s = some r →
    ∃ a, s = a ++ r := by
  intro pat
  induction pat with
  | nil =>
    intro s r h
    rw [stripPrefixCI] at h
    simp only [Option.some.injEq] at h
    exact ⟨[], by rw [h]; rfl⟩
  | cons p ps ih =>
    intro s r h
    cases s with
    | nil => cases h
    | cons c cs =>
      rw [stripPrefixCI] at h
      split at h
      · obtain ⟨a, ha⟩ := ih cs r h
        exact ⟨c :: a, by rw [List.cons_append, ← ha]⟩
      · cases h

theorem wsPlus_decomp {l r : List Char} (h : wsPlus l = some r) :
    ∃ w, l = w ++ r ∧ w ≠ [] ∧ ∀ x ∈ w, isPySpace x = true := by
  cases l with
  | nil => cases h
  | cons c cs =>
    have h2 : (if isPySpace c then some ((c :: cs).dropWhile isPySpace) else none) = some r := h
    split at h2
    next hc =>
      simp only [Option.some.injEq] at h2
      refine ⟨(c :: cs).takeWhile isPySpace, ?_, ?_, ?_⟩
      · rw [← h2, List.takeWhile_append_dropWhile]
      · rw [List.takeWhile_cons_of_pos hc]
        exact List.cons_ne_nil _ _
      · intro x hx
        exact List.mem_takeWhile_imp hx
    next => cases h2

theorem dotStarDollar_decomp {r g : List Char} (h : dotStarDollar r = some g) :
    r = g ∨ r = g ++ ['\n'] := by
  simp only [dotStarDollar] at h
  by_cases hl : r.getLast? = some '\n'
  · rw [if_pos hl] at h
    by_cases hc : (r.dropLast).contains '\n'
    · rw [if_pos hc] at h
      cases h
    · rw [if_neg hc] at h
      simp only [Option.some.injEq] at h
      obtain ⟨ys, hys⟩ := List.getLast?_eq_some_iff.mp hl
      right
      rw [hys, List.dropLast_concat] at h
      rw [hys, ← h]
  · rw [if_neg hl] at h
    by_cases hc : r.contains '\n'
    · rw [if_pos hc] at h
      cases h
    · rw [if_neg hc] at h
      simp only [Option.some.injEq] at h
      exact Or.inl h

theorem getLast_append_right {l r : List Char} (h : r ≠ []) :
    (l ++ r).getLast? = r.getLast? := by
  rw [List.getLast?_eq_head?_reverse, @List.getLast?_eq_head?_reverse Char r,
    List.reverse_append]
  cases hr : r.reverse with
  | nil => exact absurd (List.reverse_eq_nil_iff.mp hr) h
  | cons a u => simp

theorem chapterMatch_decomp {c : List Char} {n g : List Char}
    (h : chapterMatch c = some (n, g)) :
    ∃ a w t, c = a ++ w ++ t ∧ w ≠ [] ∧ (∀ x ∈ w, isPySpace x = true) ∧
      (t = g ∨ t = g ++ ['\n']) := by
  simp only [chapterMatch] at h
  split at h
  next => cases h
  next r1 h1 =>
    split at h
    next => cases h
    next r2 h2 =>
      split at h
      next => cases h
      next r3 h3 =>
        split at h
        next => cases h
        next r4 h4 =>
          split at h
          next => cases h
          next hds =>
            split at h
            next => cases h
            next r5 h5 =>
              split at h
              next => cases h
              next g2 h6 =>
                simp only [Option.some.injEq, Prod.mk.injEq] at h
                obtain ⟨hn, hg⟩ := h
                obtain ⟨a1, ha1⟩ := stripPrefixCI_decomp _ c r1 h1
                obtain ⟨w1, hw1, hw1ne, hw1ws⟩ := wsPlus_decomp h2
                obtain ⟨a2, ha2⟩ := stripPrefixCI_decomp _ r2 r3 h3
                obtain ⟨w2, hw2, hw2ne, hw2ws⟩ := wsPlus_decomp h4
                obtain ⟨w3, hw3, hw3ne, hw3ws⟩ := wsPlus_decomp h5
                refine ⟨a1 ++ w1 ++ a2 ++ w2 ++ r4.takeWhile Char.isDigit, w3, r5, ?_,
                  hw3ne, hw3ws, ?_⟩
                · rw [ha1, hw1, ha2, hw2]
                  conv_lhs =>
                    rw [← List.takeWhile_append_dropWhile (p := Char.isDigit) (l := r4), hw3]
                  simp [List.append_assoc]
                · rw [← hg]
                  exact dotStarDollar_decomp h6

theorem chapter_rest_ne_nil {s n g : List Char}
    (h : chapterMatch (clean_common s) = some (n, g)) :
    stripSpaceHyphen (pyStrip g) ≠ [] := by
  intro hnil
  obtain ⟨a, w, t, hc, hwne, hwws, hts⟩ := chapterMatch_decomp h
  have hgchar : ∀ x ∈ g, isPySpace x = true ∨ isSpHy x = true := by
    intro x hx
    obtain ⟨u, v, hguv, hu, hv⟩ := stripWhen_decomp isPySpace g
    rw [hguv, List.append_assoc, List.mem_append] at hx
    rcases hx with hx | hx
    · exact Or.inl (hu x hx)
    · rw [List.mem_append] at hx
      rcases hx with hx | hx
      · exact Or.inr (stripWhen_eq_nil_all hnil x hx)
      · exact Or.inl (hv x hx)
  rcases hts with ht | ht
  · subst ht
    by_cases hgn : t = []
    · have hw : (clean_common s).getLast? = w.getLast? := by
        rw [hc, hgn, List.append_nil]
        exact getLast_append_right hwne
      cases hwl : w.getLast? with
      | none => exact hwne (List.getLast?_eq_none_iff.mp hwl)
      | some x =>
        have hxmem : x ∈ w := List.mem_of_getLast?_eq_some hwl
        have hxc : x ∈ clean_common s := by
          rw [hc, hgn, List.append_nil, List.mem_append]
          exact Or.inr hxmem
        have hsp := clean_common_ws_space s x hxc (hwws x hxmem)
        have hbad := clean_common_getLast_ok s (hw.trans hwl)
        rw [hsp] at hbad
        exact absurd hbad (by decide)
    · have hgl : (clean_common s).getLast? = t.getLast? := by
        rw [hc]
        exact getLast_append_right hgn
      cases hgle : t.getLast? with
      | none => exact hgn (List.getLast?_eq_none_iff.mp hgle)
      | some x =>
        have hxg : x ∈ t := List.mem_of_getLast?_eq_some hgle
        have hbad := clean_common_getLast_ok s (hgl.trans hgle)
        rcases hgchar x hxg with hws | hsh
        · have hxc : x ∈ clean_common s := by
            rw [hc, List.mem_append]
            exact Or.inr hxg
          have hsp := clean_common_ws_space s x hxc hws
          rw [hsp] at hbad
          exact absurd hbad (by decide)
        · rw [hbad] at hsh
          cases hsh
  · have hclast : (clean_common s).getLast? = some '\n' := by
      rw [hc, ht]
      rw [getLast_append_right (l := a ++ w) (r := g ++ ['\n']) (by simp)]
      exact List.getLast?_concat _
    have hmem : '\n' ∈ clean_common s := List.mem_of_getLast?_eq_some hclast
    have := clean_common_ws_space s '\n' hmem (by decide)
    exact absurd this (by decide)

theorem clean_common_noBadEdges (s : List Char) : noBadEdges (clean_common s) = true := by
  rw [noBadEdges, Bool.and_eq_true]
  constructor
  · cases hh : (clean_common s).head? with
    | none => rfl
    | some c =>
      have := clean_common_head_ok s hh
      simp [this]
  · cases hh : (clean_common s).getLast? with
    | none => rfl
    | some c =>
      have := clean_common_getLast_ok s hh
      simp [this]

/-- Claim C9: for every input and both modes the output of `normalize`
never starts or ends with a space or a hyphen; in particular it never ends
with the separator `" - "`, because the pattern cannot match a cleaned
input with an empty remainder. -/
theorem normalize_trimmed (s : List Char) (m : Mode) :
    noBadEdges (normalize s m) = true ∧
      (" - ".data.isSuffixOf (normalize s m)) = false := by
  have hmain : noBadEdges (normalize s m) = true := by
    cases m with
    | tracks => exact clean_common_noBadEdges s
    | tapes =>
      cases hm : chapterMatch (clean_common s) with
      | none =>
        have ht : normalize s Mode.tapes = clean_common s := by
          simp only [normalize, transform_screw_tapes, hm]
        rw [ht]
        exact clean_common_noBadEdges s
      | some p =>
        obtain ⟨n, g⟩ := p
        have ht : normalize s Mode.tapes =
            "DJ Screw - Chapter ".data ++ n ++ (" - ".data ++ stripSpaceHyphen (pyStrip g)) := by
          simp only [normalize, transform_screw_tapes, hm]
        rw [ht]
        have hrest : stripSpaceHyphen (pyStrip g) ≠ [] := chapter_rest_ne_nil hm
        rw [noBadEdges, Bool.and_eq_true]
        constructor
        · have hhead : ("DJ Screw - Chapter ".data ++ n ++
              (" - ".data ++ stripSpaceHyphen (pyStrip g))).head? = some 'D' := rfl
          rw [hhead]
          rfl
        · have hgl : ("DJ Screw - Chapter ".data ++ n ++
              (" - ".data ++ stripSpaceHyphen (pyStrip g))).getLast? =
              (stripSpaceHyphen (pyStrip g)).getLast? := by
            have hne2 : (" - ".data ++ stripSpaceHyphen (pyStrip g)) ≠ [] := by
              rw [show (" - ".data : List Char) = ' ' :: "- ".data from rfl, List.cons_append]
              exact List.cons_ne_nil _ _
            rw [getLast_append_right hne2, getLast_append_right hrest]
          rw [hgl]
          cases hx : (stripSpaceHyphen (pyStrip g)).getLast? with
          | none => exact absurd (List.getLast?_eq_none_iff.mp hx) hrest
          | some cc =>
            have := stripWhen_getLast_false isSpHy _ hx
            simp [this]
  refine ⟨hmain, ?_⟩
  cases hs : (" - ".data.isSuffixOf (normalize s m)) with
  | false => rfl
  | true =>
    exfalso
    have hsuf : " - ".data <:+ normalize s m := List.isSuffixOf_iff_suffix.mp hs
    obtain ⟨u, hu⟩ := hsuf
    have hlast : (normalize s m).getLast? = some ' ' := by
      rw [← hu, show (" - ".data : List Char) = [' ', '-'] ++ [' '] from rfl,
        ← List.append_assoc]
      exact List.getLast?_concat _
    rw [noBadEdges, Bool.and_eq_true] at hmain
    have h2 := hmain.2
    rw [hlast] at h2
    exact absurd h2 (by decide)

/-- Sanity check mirroring the bracket-stripping example of the spec. -/
theorem sanity_bracket :
    normalize "Track Name [abc123xyz]".data Mode.tracks = "Track Name".data := by decide

/-- Sanity check mirroring the spaced-prefix case-normalization example. -/
theorem sanity_spaced :
    normalize "dj   screw Chapter 7 Freestyle".data Mode.tapes =
      "DJ Screw - Chapter 7 - Freestyle".data := by decide

/-- Sanity check mirroring the hyphen-normalization example. -/
theorem sanity_hyphen :
    normalize "Artist-Title".data Mode.tracks = "Artist - Title".data := by decide

/-- Sanity check mirroring the whitespace-collapsing example. -/
theorem sanity_whitespace :
    normalize "Artist   -   Title  ".data Mode.tracks = "Artist - Title".data := by decide

end AudioFilenames
